import Mathlib

/-
Verification of the pane-group layout engine (pane_group.rs): the recursive
Member/PaneAxis tree with split/remove/swap, the prepaint layout pass of
PaneAxisElement, the compute_resize drag algorithm and cached-box hit testing.
All pixel and flex arithmetic is modelled over ℚ; pane handles are opaque ids.
-/

set_option maxHeartbeats 1000000
set_option linter.unusedTactic false
set_option linter.unusedVariables false

namespace PG

/-- Layout axis; models gpui's two-variant Axis enum as used by pane_group.rs. -/
inductive Ax where
| horizontal
| vertical
deriving DecidableEq

/-- SplitDirection from pane_group.rs. -/
inductive SplitDirection where
| up
| down
| left
| right
deriving DecidableEq

/-- SplitDirection::axis. -/
def SplitDirection.axis : SplitDirection → Ax
| .up => .vertical
| .down => .vertical
| .left => .horizontal
| .right => .horizontal

/-- SplitDirection::increasing. -/
def SplitDirection.increasing : SplitDirection → Bool
| .left => false
| .up => false
| .down => true
| .right => true

/-- Point with rational coordinates (models Point of Pixels). -/
structure PointQ where
  x : ℚ
  y : ℚ
deriving DecidableEq

/-- Size with rational extents (models Size of Pixels). -/
structure SizeQ where
  width : ℚ
  height : ℚ
deriving DecidableEq

/-- Rectangle (models gpui Bounds of Pixels). -/
structure BoundsQ where
  origin : PointQ
  size : SizeQ
deriving DecidableEq

/-- Bounds::contains, modelled from the external gpui crate: edge-inclusive. -/
def containsPt (b : BoundsQ) (p : PointQ) : Bool :=
  decide (b.origin.x ≤ p.x) && decide (p.x ≤ b.origin.x + b.size.width) &&
  decide (b.origin.y ≤ p.y) && decide (p.y ≤ b.origin.y + b.size.height)

/-- f32/Pixels rounding: round half away from zero. -/
def rustRound (q : ℚ) : ℚ :=
  if 0 ≤ q then ((⌊q + 1/2⌋ : ℤ) : ℚ) else -((⌊-q + 1/2⌋ : ℤ) : ℚ)

/-- Size::along. -/
def axExtent (a : Ax) (s : SizeQ) : ℚ :=
  match a with
  | .horizontal => s.width
  | .vertical => s.height

/-- Point::along. -/
def axCoord (a : Ax) (p : PointQ) : ℚ :=
  match a with
  | .horizontal => p.x
  | .vertical => p.y

/-- Size::apply_along. -/
def applyAlongSize (a : Ax) (s : SizeQ) (f : ℚ → ℚ) : SizeQ :=
  match a with
  | .horizontal => ⟨f s.width, s.height⟩
  | .vertical => ⟨s.width, f s.height⟩

/-- Point::apply_along. -/
def applyAlongPoint (a : Ax) (p : PointQ) (f : ℚ → ℚ) : PointQ :=
  match a with
  | .horizontal => ⟨f p.x, p.y⟩
  | .vertical => ⟨p.x, f p.y⟩

/-- Size::map. -/
def mapSize (s : SizeQ) (f : ℚ → ℚ) : SizeQ := ⟨f s.width, f s.height⟩

mutual
/-- Member from pane_group.rs; a PaneAxis is inlined as the axis constructor
with its orientation, flex vector and cached bounding boxes. -/
inductive Member where
| pane (id : ℕ) : Member
| axis (a : Ax) (flexes : List ℚ) (boxes : List (Option BoundsQ)) (members : Members) : Member
/-- The members vector of a PaneAxis. -/
inductive Members where
| nil : Members
| cons (m : Member) (ms : Members) : Members
end

deriving instance DecidableEq for Member, Members

/-- Length of a member list. -/
def membersLen : Members → ℕ
| .nil => 0
| .cons _ ms => membersLen ms + 1

/-- Indexing into a member list. -/
def membersGet? : Members → ℕ → Option Member
| .nil, _ => none
| .cons m _, 0 => some m
| .cons _ ms, n + 1 => membersGet? ms n

mutual
/-- Member::contains. -/
def Member.containsPane : Member → ℕ → Bool
| .pane q, p => q == p
| .axis _ _ _ ms, p => membersContainsPane ms p
/-- Member::contains over a member list. -/
def membersContainsPane : Members → ℕ → Bool
| .nil, _ => false
| .cons m ms, p => m.containsPane p || membersContainsPane ms p
end

mutual
/-- Member::collect_panes: pane ids in tree order. -/
def panesOfM : Member → List ℕ
| .pane p => [p]
| .axis _ _ _ ms => panesOfMs ms
/-- collect_panes over a member list. -/
def panesOfMs : Members → List ℕ
| .nil => []
| .cons m ms => panesOfM m ++ panesOfMs ms
end

/-- Member::new_axis: wrap old and new pane in a fresh two-member axis. -/
def newAxis (oldP newP : ℕ) (d : SplitDirection) : Member :=
  let ms : Members :=
    match d with
    | .up => .cons (.pane newP) (.cons (.pane oldP) .nil)
    | .left => .cons (.pane newP) (.cons (.pane oldP) .nil)
    | .down => .cons (.pane oldP) (.cons (.pane newP) .nil)
    | .right => .cons (.pane oldP) (.cons (.pane newP) .nil)
  Member.axis d.axis [1, 1] [none, none] ms

mutual
/-- PaneAxis::split on an axis member (pane members never match in the source). -/
def memberSplit : Member → ℕ → ℕ → SplitDirection → Option Member
| .pane _, _, _, _ => none
| .axis a fl bx ms, oldP, newP, d =>
  match membersSplit a ms oldP newP d with
  | none => none
  | some (ms', true) => some (.axis a (List.replicate (membersLen ms') 1) bx ms')
  | some (ms', false) => some (.axis a fl bx ms')
/-- The member loop of PaneAxis::split; the Bool records whether a sibling was
inserted into this member list (which resets this axis's flexes to uniform). -/
def membersSplit : Ax → Members → ℕ → ℕ → SplitDirection → Option (Members × Bool)
| _, .nil, _, _, _ => none
| selfAx, .cons (.axis a fl bx mms) ms, oldP, newP, d =>
  match memberSplit (.axis a fl bx mms) oldP newP d with
  | some m' => some (.cons m' ms, false)
  | none =>
    match membersSplit selfAx ms oldP newP d with
    | some (ms', ins) => some (.cons (.axis a fl bx mms) ms', ins)
    | none => none
| selfAx, .cons (.pane q) ms, oldP, newP, d =>
  if q == oldP then
    if d.axis == selfAx then
      if d.increasing then
        some (.cons (.pane q) (.cons (.pane newP) ms), true)
      else
        some (.cons (.pane newP) (.cons (.pane q) ms), true)
    else
      some (.cons (newAxis oldP newP d) ms, false)
  else
    match membersSplit selfAx ms oldP newP d with
    | some (ms', ins) => some (.cons (.pane q) ms', ins)
    | none => none
end

/-- PaneGroup::split. -/
def pgSplit (t : Member) (oldP newP : ℕ) (d : SplitDirection) : Option Member :=
  match t with
  | .pane q => if q == oldP then some (newAxis oldP newP d) else none
  | .axis a fl bx ms => memberSplit (.axis a fl bx ms) oldP newP d

mutual
/-- PaneAxis::remove, expressed as the value that occupies this member's slot
afterwards: the sole remaining member on collapse, else the updated axis. -/
def memberRemove : Member → ℕ → Option Member
| .pane _, _ => none
| .axis a fl bx ms, p =>
  match membersRemove ms p with
  | none => none
  | some (ms', removed) =>
    let fl' := if removed then List.replicate (membersLen ms') 1 else fl
    match ms' with
    | .cons m .nil => some m
    | _ => some (.axis a fl' bx ms')
/-- The member loop of PaneAxis::remove; the Bool records whether a direct pane
child was removed from this list (which resets this axis's flexes to uniform). -/
def membersRemove : Members → ℕ → Option (Members × Bool)
| .nil, _ => none
| .cons (.axis a fl bx mms) ms, p =>
  match memberRemove (.axis a fl bx mms) p with
  | some slot => some (.cons slot ms, false)
  | none =>
    match membersRemove ms p with
    | some (ms', b) => some (.cons (.axis a fl bx mms) ms', b)
    | none => none
| .cons (.pane q) ms, p =>
  if q == p then some (ms, true)
  else
    match membersRemove ms p with
    | some (ms', b) => some (.cons (.pane q) ms', b)
    | none => none
end

/-- PaneGroup::remove. -/
def pgRemove (t : Member) (p : ℕ) : Option (Member × Bool) :=
  match t with
  | .pane _ => some (t, false)
  | .axis a fl bx ms =>
    match memberRemove (.axis a fl bx ms) p with
    | some slot => some (slot, true)
    | none => none

mutual
/-- One member of the PaneAxis::swap loop. -/
def memberSwapOne : Member → ℕ → ℕ → Member
| .pane q, f, g => if q == f then .pane g else if q == g then .pane f else .pane q
| .axis a fl bx ms, f, g => .axis a fl bx (membersSwap ms f g)
/-- PaneAxis::swap: unconditional full walk, swapping both directions. -/
def membersSwap : Members → ℕ → ℕ → Members
| .nil, _, _ => .nil
| .cons m ms, f, g => .cons (memberSwapOne m f g) (membersSwap ms f g)
end

/-- PaneGroup::swap. -/
def pgSwap (t : Member) (f g : ℕ) : Member :=
  match t with
  | .pane _ => t
  | .axis a fl bx ms => .axis a fl bx (membersSwap ms f g)

mutual
/-- The member loop of PaneAxis::pane_at_pixel_position: walk members with the
axis's cached boxes in parallel; the first hit decides the result. -/
def membersPaneAt : Members → List (Option BoundsQ) → PointQ → Option ℕ
| .nil, _, _ => none
| .cons m ms, bxs, pt =>
  match bxs.headD none with
  | some b =>
    if containsPt b pt then memberDescend m pt
    else membersPaneAt ms bxs.tail pt
  | none => membersPaneAt ms bxs.tail pt
/-- The dispatch at a hit: a pane child is returned, an axis child is recursed into. -/
def memberDescend : Member → PointQ → Option ℕ
| .pane p, _ => some p
| .axis _ _ bx ms, pt => membersPaneAt ms bx pt
end

/-- PaneGroup::pane_at_pixel_position. -/
def pgPaneAt (t : Member) (pt : PointQ) : Option ℕ :=
  match t with
  | .pane p => some p
  | .axis _ _ bx ms => membersPaneAt ms bx pt

/-- Whether child j's cached box is present and contains pt. -/
def hitAt (bxs : List (Option BoundsQ)) (pt : PointQ) (j : ℕ) : Bool :=
  match bxs.getD j none with
  | some b => containsPt b pt
  | none => false

mutual
/-- Erase flexes and cached boxes: the pane sequence and axis structure only. -/
def eraseM : Member → Member
| .pane p => .pane p
| .axis a _ _ ms => .axis a [] [] (eraseMs ms)
/-- eraseM over a member list. -/
def eraseMs : Members → Members
| .nil => .nil
| .cons m ms => .cons (eraseM m) (eraseMs ms)
end

mutual
/-- Well-formedness: every axis holds at least two members. -/
def wfB : Member → Bool
| .pane _ => true
| .axis _ _ _ ms => decide (2 ≤ membersLen ms) && wfAllB ms
/-- wfB over a member list. -/
def wfAllB : Members → Bool
| .nil => true
| .cons m ms => wfB m && wfAllB ms
end

mutual
/-- Exact flex invariant: at every axis the flex sum equals the member count
and the flex vector has one entry per member. -/
def invB : Member → Bool
| .pane _ => true
| .axis _ fl _ ms =>
  decide (fl.sum = (membersLen ms : ℚ)) && decide (fl.length = membersLen ms) && invAllB ms
/-- invB over a member list. -/
def invAllB : Members → Bool
| .nil => true
| .cons m ms => invB m && invAllB ms
end

mutual
/-- The spec's approximate invariant: |sum(flexes) - len(members)| < 1e-3 at every axis. -/
def ainvB : Member → Bool
| .pane _ => true
| .axis _ fl _ ms => decide (|fl.sum - (membersLen ms : ℚ)| < 1 / 1000) && ainvAllB ms
/-- ainvB over a member list. -/
def ainvAllB : Members → Bool
| .nil => true
| .cons m ms => ainvB m && ainvAllB ms
end

/-- Trees reachable from a single pane by successful PaneGroup split/remove calls. -/
inductive Reachable : Member → Prop where
| base (p : ℕ) : Reachable (.pane p)
| split (t t' : Member) (o n : ℕ) (d : SplitDirection) :
    Reachable t → pgSplit t o n d = some t' → Reachable t'
| remove (t t' : Member) (p : ℕ) (b : Bool) :
    Reachable t → pgRemove t p = some (t', b) → Reachable t'

/-- The child loop of PaneAxisElement::prepaint (magnification_value is fixed to
1.0 in the source, so no active-pane magnification): the child size is the
container size with its primary extent replaced by space_per_flex * flex and
both components rounded; the origin advances along the axis by the rounded
primary extent of the child just placed. -/
def layoutChildren (a : Ax) (bsize : SizeQ) (spf : ℚ) : PointQ → List ℚ → List BoundsQ
| _, [] => []
| o, f :: fs =>
  let cs := mapSize (applyAlongSize a bsize (fun _ => spf * f)) rustRound
  ⟨o, cs⟩ :: layoutChildren a bsize spf (applyAlongPoint a o (fun v => v + axExtent a cs)) fs

/-- PaneAxisElement::prepaint's computed child bounds (the same values are
cached into the axis's bounding_boxes vector). -/
def prepaintBounds (a : Ax) (b : BoundsQ) (flexes : List ℚ) : List BoundsQ :=
  layoutChildren a b.size (axExtent a b.size / (flexes.length : ℚ)) b.origin flexes

/-- HORIZONTAL_MIN_SIZE and VERTICAL_MIN_SIZE. -/
def minSize : Ax → ℚ
| .horizontal => 80
| .vertical => 100

/-- The size closure in compute_resize: container extent * (flex[i] / len). -/
def szOf (c : ℚ) (fl : List ℚ) (i : ℕ) : ℚ :=
  c * (fl.getD i 0 / (fl.length : ℚ))

/-- Successor indices of the resize loop in the forward (growing) direction. -/
def forwardIdxs (ix len : ℕ) : List ℕ :=
  (List.range (len - (ix + 1))).map (fun off => ix + off)

/-- Successor indices of the resize loop in the backward (shrinking) direction. -/
def backwardIdxs (ix : ℕ) : List ℕ :=
  (List.range (ix + 1)).map (fun off => ix - off)

/-- One iteration of the compute_resize while-loop on the pair (k, k+1). -/
def resizeStep (minS c : ℚ) (k : ℕ) (st : List ℚ × ℚ) : List ℚ × ℚ :=
  let fl := st.1
  let p := st.2
  let nextT := max (szOf c fl (k + 1) - p) minS
  let curT := max (szOf c fl k + szOf c fl (k + 1) - nextT) minS
  let change := curT - szOf c fl k
  let d := change / c
  ((fl.set k (fl.getD k 0 + d)).set (k + 1) (fl.getD (k + 1) 0 - d), p - change)

/-- The compute_resize while-loop: stops when the proposed pixel change is
exhausted or the successor iterator runs out. -/
def resizeLoop (minS c : ℚ) : List ℕ → List ℚ × ℚ → List ℚ × ℚ
| [], st => st
| k :: ks, st => if st.2 = 0 then st else resizeLoop minS c ks (resizeStep minS c k st)

/-- PaneAxisElement::compute_resize as its effect on the flex vector.
posMinusStart is (e.position - child_start) along the axis, c the container
extent along the axis. -/
def computeResize (a : Ax) (fl : List ℚ) (ix : ℕ) (posMinusStart c : ℚ) : List ℚ :=
  let minS := minSize a
  if minS - 1 > szOf c fl ix then fl
  else
    let proposed := posMinusStart - szOf c fl ix
    let idxs := if 0 < proposed then forwardIdxs ix fl.length else backwardIdxs ix
    (resizeLoop minS c idxs (fl, proposed)).1

/-! ### List helper lemmas -/

theorem getD_set_self (l : List ℚ) (i : ℕ) (a : ℚ) (h : i < l.length) :
    (l.set i a).getD i 0 = a := by
  induction l generalizing i with
  | nil => simp at h
  | cons x xs ih =>
    cases i with
    | zero => rfl
    | succ n => exact ih n (by simpa using h)

theorem getD_set_other (l : List ℚ) (i j : ℕ) (a : ℚ) (h : i ≠ j) :
    (l.set i a).getD j 0 = l.getD j 0 := by
  induction l generalizing i j with
  | nil => rfl
  | cons x xs ih =>
    cases i with
    | zero =>
      cases j with
      | zero => exact absurd rfl h
      | succ m => rfl
    | succ n =>
      cases j with
      | zero => rfl
      | succ m => exact ih n m (by omega)

theorem sum_set_eq (l : List ℚ) (i : ℕ) (a : ℚ) (h : i < l.length) :
    (l.set i a).sum = l.sum - l.getD i 0 + a := by
  induction l generalizing i with
  | nil => simp at h
  | cons x xs ih =>
    cases i with
    | zero =>
      show (a :: xs).sum = (x :: xs).sum - x + a
      simp [List.sum_cons]
      ring
    | succ n =>
      have hn : n < xs.length := by simpa using h
      show (x :: xs.set n a).sum = (x :: xs).sum - xs.getD n 0 + a
      simp [List.sum_cons, ih n hn]
      ring

/-! ### compute_resize lemmas -/

theorem resizeStep_length (minS c : ℚ) (k : ℕ) (st : List ℚ × ℚ) :
    (resizeStep minS c k st).1.length = st.1.length := by
  simp [resizeStep]

theorem resizeLoop_length (minS c : ℚ) (l : List ℕ) :
    ∀ st : List ℚ × ℚ, (resizeLoop minS c l st).1.length = st.1.length := by
  induction l with
  | nil => intro st; rfl
  | cons k ks ih =>
    intro st
    by_cases h : st.2 = 0
    · simp [resizeLoop, h]
    · simp only [resizeLoop, if_neg h]
      rw [ih, resizeStep_length]

theorem set_pair_sum (fl : List ℚ) (k : ℕ) (d : ℚ) (hk : k + 1 < fl.length) :
    ((fl.set k (fl.getD k 0 + d)).set (k + 1) (fl.getD (k + 1) 0 - d)).sum = fl.sum := by
  have hk0 : k < fl.length := by omega
  have h1 : k + 1 < (fl.set k (fl.getD k 0 + d)).length := by simpa using hk
  have e1 : (fl.set k (fl.getD k 0 + d)).getD (k + 1) 0 = fl.getD (k + 1) 0 :=
    getD_set_other _ _ _ _ (by omega)
  rw [sum_set_eq _ _ _ h1, e1, sum_set_eq _ _ _ hk0]
  ring

theorem resizeStep_sum (minS c : ℚ) (k : ℕ) (fl : List ℚ) (p : ℚ) (hk : k + 1 < fl.length) :
    (resizeStep minS c k (fl, p)).1.sum = fl.sum :=
  set_pair_sum fl k _ hk

theorem resizeLoop_sum (minS c : ℚ) (l : List ℕ) :
    ∀ (fl : List ℚ) (p : ℚ), (∀ k ∈ l, k + 1 < fl.length) →
      (resizeLoop minS c l (fl, p)).1.sum = fl.sum := by
  induction l with
  | nil => intro fl p _; rfl
  | cons k ks ih =>
    intro fl p hmem
    by_cases h : p = 0
    · simp [resizeLoop, h]
    · have hk : k + 1 < fl.length := hmem k (by simp)
      simp only [resizeLoop, if_neg (show ¬((fl, p).2 = 0) from h)]
      rcases hst : resizeStep minS c k (fl, p) with ⟨fl2, p2⟩
      have hlen : fl2.length = fl.length := by
        have := resizeStep_length minS c k (fl, p)
        rw [hst] at this
        exact this
      have hsum : fl2.sum = fl.sum := by
        have := resizeStep_sum minS c k fl p hk
        rw [hst] at this
        exact this
      rw [ih fl2 p2 (fun k2 hk2 => by rw [hlen]; exact hmem k2 (by simp [hk2])), hsum]

theorem szOf_pair_set (c : ℚ) (fl : List ℚ) (k : ℕ) (d : ℚ) (hc : c ≠ 0) (hk : k + 1 < fl.length) :
    ∀ j, j < fl.length →
      szOf c ((fl.set k (fl.getD k 0 + d / c)).set (k + 1) (fl.getD (k + 1) 0 - d / c)) j
        = (if j = k then szOf c fl j + d / (fl.length : ℚ)
           else if j = k + 1 then szOf c fl j - d / (fl.length : ℚ)
           else szOf c fl j) := by
  intro j hj
  have hk0 : k < fl.length := by omega
  have hlen :
      ((fl.set k (fl.getD k 0 + d / c)).set (k + 1) (fl.getD (k + 1) 0 - d / c)).length
        = fl.length := by simp
  have hL0 : ((fl.length : ℚ)) ≠ 0 := Nat.cast_ne_zero.mpr (by omega)
  split_ifs with h1 h2
  · subst h1
    have e : ((fl.set j (fl.getD j 0 + d / c)).set (j + 1) (fl.getD (j + 1) 0 - d / c)).getD j 0
        = fl.getD j 0 + d / c := by
      rw [getD_set_other _ _ _ _ (by omega), getD_set_self _ _ _ hk0]
    simp only [szOf]
    rw [hlen, e]
    field_simp
    ring
  · subst h2
    have e : ((fl.set k (fl.getD k 0 + d / c)).set (k + 1) (fl.getD (k + 1) 0 - d / c)).getD (k + 1) 0
        = fl.getD (k + 1) 0 - d / c := by
      apply getD_set_self
      simpa using hk
    simp only [szOf]
    rw [hlen, e]
    field_simp
    ring
  · have e : ((fl.set k (fl.getD k 0 + d / c)).set (k + 1) (fl.getD (k + 1) 0 - d / c)).getD j 0
        = fl.getD j 0 := by
      rw [getD_set_other _ _ _ _ (by omega), getD_set_other _ _ _ _ (by omega)]
    simp only [szOf]
    rw [hlen, e]

theorem resizeStep_getD_other (minS c : ℚ) (k : ℕ) (fl : List ℚ) (p : ℚ) (j : ℕ)
    (hj1 : j ≠ k) (hj2 : j ≠ k + 1) :
    (resizeStep minS c k (fl, p)).1.getD j 0 = fl.getD j 0 := by
  simp only [resizeStep]
  rw [getD_set_other _ _ _ _ (by omega), getD_set_other _ _ _ _ (by omega)]

theorem resizeStep_min (minS c : ℚ) (k : ℕ) (fl : List ℚ) (p : ℚ)
    (hc : 0 < c) (hk : k + 1 < fl.length)
    (hinv : ∀ j, j < fl.length → minS ≤ szOf c fl j) :
    ∀ j, j < fl.length → minS ≤ szOf c (resizeStep minS c k (fl, p)).1 j := by
  intro j hj
  have hcne : c ≠ 0 := ne_of_gt hc
  have hL0 : (0 : ℚ) < ((fl.length : ℕ) : ℚ) := by
    exact_mod_cast (show 0 < fl.length by omega)
  have hL1 : (1 : ℚ) ≤ ((fl.length : ℕ) : ℚ) := by
    exact_mod_cast (show 1 ≤ fl.length by omega)
  have hs0 : minS ≤ szOf c fl k := hinv k (by omega)
  have hs1 : minS ≤ szOf c fl (k + 1) := hinv (k + 1) hk
  have hszj : minS ≤ szOf c fl j := hinv j hj
  have hstep : (resizeStep minS c k (fl, p)).1
      = (fl.set k (fl.getD k 0
            + (max (szOf c fl k + szOf c fl (k + 1) - max (szOf c fl (k + 1) - p) minS) minS
                - szOf c fl k) / c)).set (k + 1)
          (fl.getD (k + 1) 0
            - (max (szOf c fl k + szOf c fl (k + 1) - max (szOf c fl (k + 1) - p) minS) minS
                - szOf c fl k) / c) := rfl
  rw [hstep, szOf_pair_set c fl k _ hcne hk j hj]
  set nextT := max (szOf c fl (k + 1) - p) minS with hnx
  set curT := max (szOf c fl k + szOf c fl (k + 1) - nextT) minS with hct
  have hnx_ge : minS ≤ nextT := le_max_right _ _
  have hct_ge : minS ≤ curT := le_max_right _ _
  set ch := curT - szOf c fl k with hchd
  split_ifs with h1 h2
  · rcases le_or_lt 0 ch with hpos | hneg
    · have hq : 0 ≤ ch / ((fl.length : ℕ) : ℚ) := div_nonneg hpos hL0.le
      subst h1
      linarith
    · have hq : ch ≤ ch / ((fl.length : ℕ) : ℚ) := by
        rw [le_div_iff₀ hL0]
        nlinarith
      subst h1
      have hchv : szOf c fl j + ch = curT := by rw [hchd]; ring
      linarith
  · subst h2
    rcases le_or_lt ch 0 with hneg | hpos
    · have hq : 0 ≤ -(ch / ((fl.length : ℕ) : ℚ)) := by
        rw [← neg_div]
        exact div_nonneg (by linarith) hL0.le
      linarith
    · have harm : curT = szOf c fl k + szOf c fl (k + 1) - nextT := by
        rcases max_choice (szOf c fl k + szOf c fl (k + 1) - nextT) minS with h | h
        · rw [hct, h]
        · exfalso
          have hle : curT ≤ szOf c fl k := by rw [hct, h]; exact hs0
          have : ch ≤ 0 := by rw [hchd]; linarith
          linarith
      have hchle : szOf c fl (k + 1) - ch = nextT := by rw [hchd, harm]; ring
      have hq : ch / ((fl.length : ℕ) : ℚ) ≤ ch := div_le_self hpos.le hL1
      linarith
  · exact hszj

theorem resizeLoop_min (minS c : ℚ) (hc : 0 < c) (l : List ℕ) :
    ∀ (fl : List ℚ) (p : ℚ), (∀ k ∈ l, k + 1 < fl.length) →
      (∀ j, j < fl.length → minS ≤ szOf c fl j) →
      ∀ j, j < fl.length → minS ≤ szOf c (resizeLoop minS c l (fl, p)).1 j := by
  induction l with
  | nil => intro fl p _ hinv j hj; exact hinv j hj
  | cons k ks ih =>
    intro fl p hmem hinv j hj
    by_cases h : p = 0
    · simp only [resizeLoop, if_pos (show (fl, p).2 = 0 from h)]
      exact hinv j hj
    · have hk : k + 1 < fl.length := hmem k (by simp)
      simp only [resizeLoop, if_neg (show ¬((fl, p).2 = 0) from h)]
      rcases hst : resizeStep minS c k (fl, p) with ⟨fl2, p2⟩
      have hlen : fl2.length = fl.length := by
        have := resizeStep_length minS c k (fl, p)
        rw [hst] at this
        exact this
      have hinv2 : ∀ j2, j2 < fl2.length → minS ≤ szOf c fl2 j2 := by
        intro j2 hj2
        have := resizeStep_min minS c k fl p hc hk hinv j2 (by omega)
        rw [hst] at this
        exact this
      exact ih fl2 p2 (fun k2 hk2 => by rw [hlen]; exact hmem k2 (by simp [hk2])) hinv2 j
        (by omega)

theorem forwardIdxs_mem (ix len k : ℕ) (h : k ∈ forwardIdxs ix len) : k + 1 < len := by
  simp only [forwardIdxs, List.mem_map, List.mem_range] at h
  obtain ⟨off, hoff, rfl⟩ := h
  omega

theorem backwardIdxs_mem (ix k : ℕ) (h : k ∈ backwardIdxs ix) : k ≤ ix := by
  simp only [backwardIdxs, List.mem_map, List.mem_range] at h
  obtain ⟨off, hoff, rfl⟩ := h
  omega

theorem computeResize_sum (a : Ax) (fl : List ℚ) (ix : ℕ) (pms c : ℚ)
    (hix : ix + 1 < fl.length) :
    (computeResize a fl ix pms c).sum = fl.sum := by
  simp only [computeResize]
  split_ifs with hguard hdir
  · rfl
  · exact resizeLoop_sum _ _ _ fl _ (fun k hk => forwardIdxs_mem ix fl.length k hk)
  · exact resizeLoop_sum _ _ _ fl _ (fun k hk => by
      have := backwardIdxs_mem ix k hk
      omega)

theorem computeResize_length (a : Ax) (fl : List ℚ) (ix : ℕ) (pms c : ℚ) :
    (computeResize a fl ix pms c).length = fl.length := by
  simp only [computeResize]
  split_ifs with hguard hdir
  · rfl
  · rw [resizeLoop_length]
  · rw [resizeLoop_length]

/-! ### Tree lemmas: contains, remove, split, swap -/

mutual

theorem memberRemove_none_nc : ∀ (m : Member) (p : ℕ),
    m.containsPane p = false → memberRemove m p = none
| .pane _, _, _ => rfl
| .axis a fl bx ms, p, h => by
  have hms : membersContainsPane ms p = false := by
    simpa [Member.containsPane] using h
  simp [memberRemove, membersRemove_none_nc ms p hms]

theorem membersRemove_none_nc : ∀ (ms : Members) (p : ℕ),
    membersContainsPane ms p = false → membersRemove ms p = none
| .nil, _, _ => rfl
| .cons (.pane q) ms, p, h => by
  simp only [membersContainsPane, Member.containsPane, Bool.or_eq_false_iff] at h
  simp [membersRemove, h.1, membersRemove_none_nc ms p h.2]
| .cons (.axis a fl bx mms) ms, p, h => by
  simp only [membersContainsPane, Member.containsPane, Bool.or_eq_false_iff] at h
  simp [membersRemove, memberRemove_none_nc (.axis a fl bx mms) p
      (by simp [Member.containsPane, h.1]),
    membersRemove_none_nc ms p h.2]

end

theorem membersRemove_some_c : ∀ (ms : Members) (p : ℕ),
    membersContainsPane ms p = true → (membersRemove ms p).isSome = true
| .nil, p, h => by simp [membersContainsPane] at h
| .cons (.pane q) ms, p, h => by
  by_cases hq : (q == p) = true
  · simp [membersRemove, hq]
  · have hq2 : (q == p) = false := by simpa using hq
    have htail : membersContainsPane ms p = true := by
      simpa [membersContainsPane, Member.containsPane, hq2] using h
    have hrec := membersRemove_some_c ms p htail
    rcases hms : membersRemove ms p with _ | ⟨ms2, b2⟩
    · rw [hms] at hrec; simp at hrec
    · simp [membersRemove, hq2, hms]
| .cons (.axis a fl bx mms) ms, p, h => by
  by_cases hc : membersContainsPane mms p = true
  · have hrec := membersRemove_some_c mms p hc
    rcases hmm : membersRemove mms p with _ | ⟨ms2, b2⟩
    · rw [hmm] at hrec; simp at hrec
    · have hsome : ∃ slot, memberRemove (.axis a fl bx mms) p = some slot := by
        simp only [memberRemove, hmm]
        cases ms2 with
        | nil => exact ⟨_, rfl⟩
        | cons m2 ms3 =>
          cases ms3 with
          | nil => exact ⟨_, rfl⟩
          | cons m3 ms4 => exact ⟨_, rfl⟩
      obtain ⟨slot, hslot⟩ := hsome
      simp [membersRemove, hslot]
  · have hc2 : membersContainsPane mms p = false := by simpa using hc
    have hnone : memberRemove (.axis a fl bx mms) p = none :=
      memberRemove_none_nc _ p (by simp [Member.containsPane, hc2])
    have htail : membersContainsPane ms p = true := by
      simpa [membersContainsPane, Member.containsPane, hc2] using h
    have hrec := membersRemove_some_c ms p htail
    rcases hms : membersRemove ms p with _ | ⟨ms2, b2⟩
    · rw [hms] at hrec; simp at hrec
    · simp [membersRemove, hnone, hms]

mutual

theorem memberRemove_wf : ∀ (m : Member) (p : ℕ) (m2 : Member),
    wfB m = true → memberRemove m p = some m2 → wfB m2 = true
| .pane _, _, _, _, h => by simp [memberRemove] at h
| .axis a fl bx ms, p, m2, hwf, h => by
  simp only [wfB, Bool.and_eq_true, decide_eq_true_eq] at hwf
  obtain ⟨hlen, hall⟩ := hwf
  rcases hms : membersRemove ms p with _ | ⟨ms2, rm⟩
  · simp [memberRemove, hms] at h
  · have hrec := membersRemove_wf ms p (ms2, rm) hall hms
    obtain ⟨hall2, hlen2⟩ := hrec
    cases ms2 with
    | nil =>
      exfalso
      have h2 : membersLen ms = membersLen Members.nil + (if rm = true then 1 else 0) := hlen2
      cases rm <;> simp [membersLen] at h2 <;> omega
    | cons x ms3 =>
      cases ms3 with
      | nil =>
        have hx : m2 = x := by
          simp only [memberRemove, hms] at h
          exact (Option.some_inj.mp h).symm
        have : wfB x = true := by
          simp only [wfAllB, Bool.and_eq_true] at hall2
          exact hall2.1
        rw [hx]; exact this
      | cons y ms4 =>
        have hx : m2 = .axis a (if rm then List.replicate (membersLen (.cons x (.cons y ms4))) 1 else fl) bx (.cons x (.cons y ms4)) := by
          simp only [memberRemove, hms] at h
          exact (Option.some_inj.mp h).symm
        rw [hx]
        simp only [wfB, Bool.and_eq_true, decide_eq_true_eq]
        exact ⟨by simp only [membersLen]; omega, hall2⟩

theorem membersRemove_wf : ∀ (ms : Members) (p : ℕ) (out : Members × Bool),
    wfAllB ms = true → membersRemove ms p = some out →
    wfAllB out.1 = true ∧ membersLen ms = membersLen out.1 + (if out.2 then 1 else 0)
| .nil, _, _, _, h => by simp [membersRemove] at h
| .cons (.pane q) ms, p, out, hwf, h => by
  simp only [wfAllB, Bool.and_eq_true] at hwf
  by_cases hq : (q == p) = true
  · have : out = (ms, true) := by
      simp only [membersRemove, hq, if_true] at h
      exact (Option.some_inj.mp h).symm
    rw [this]
    exact ⟨hwf.2, by simp [membersLen]⟩
  · have hq2 : (q == p) = false := by simpa using hq
    rcases hms : membersRemove ms p with _ | ⟨ms2, b2⟩
    · simp [membersRemove, hq2, hms] at h
    · have hrec := membersRemove_wf ms p (ms2, b2) hwf.2 hms
      have : out = (.cons (.pane q) ms2, b2) := by
        simp only [membersRemove, hq2, hms] at h
        simp at h
        exact h.symm
      rw [this]
      refine ⟨by simp [wfAllB, hwf.1, hrec.1], ?_⟩
      have h2 : membersLen ms = membersLen ms2 + (if b2 = true then 1 else 0) := hrec.2
      cases b2 <;> simp [membersLen] at h2 ⊢ <;> omega
| .cons (.axis a fl bx mms) ms, p, out, hwf, h => by
  simp only [wfAllB, Bool.and_eq_true] at hwf
  rcases hin : memberRemove (.axis a fl bx mms) p with _ | slot
  · rcases hms : membersRemove ms p with _ | ⟨ms2, b2⟩
    · simp [membersRemove, hin, hms] at h
    · have hrec := membersRemove_wf ms p (ms2, b2) hwf.2 hms
      have : out = (.cons (.axis a fl bx mms) ms2, b2) := by
        simp only [membersRemove, hin, hms] at h
        simp at h
        exact h.symm
      rw [this]
      refine ⟨by simp [wfAllB, hwf.1, hrec.1], ?_⟩
      have h2 : membersLen ms = membersLen ms2 + (if b2 = true then 1 else 0) := hrec.2
      cases b2 <;> simp [membersLen] at h2 ⊢ <;> omega
  · have hslot : wfB slot = true := memberRemove_wf (.axis a fl bx mms) p slot hwf.1 hin
    have : out = (.cons slot ms, false) := by
      simp only [membersRemove, hin] at h
      simp at h
      exact h.symm
    rw [this]
    exact ⟨by simp [wfAllB, hslot, hwf.2], by simp [membersLen]⟩

end

theorem newAxis_inv (o n : ℕ) (d : SplitDirection) : invB (newAxis o n d) = true := by
  cases d <;>
    simp [newAxis, invB, invAllB, membersLen, SplitDirection.axis] <;>
    norm_num

mutual

theorem memberSplit_inv : ∀ (m : Member) (o n : ℕ) (d : SplitDirection) (m2 : Member),
    invB m = true → memberSplit m o n d = some m2 → invB m2 = true
| .pane _, _, _, _, _, _, h => by simp [memberSplit] at h
| .axis a fl bx ms, o, n, d, m2, hinv, h => by
  simp only [invB, Bool.and_eq_true, decide_eq_true_eq] at hinv
  obtain ⟨⟨hsum, hflen⟩, hall⟩ := hinv
  rcases hms : membersSplit a ms o n d with _ | ⟨ms2, ins⟩
  · simp [memberSplit, hms] at h
  · have hrec := membersSplit_inv a ms o n d (ms2, ins) hall hms
    obtain ⟨hall2, hlen2⟩ := hrec
    cases ins with
    | true =>
      have : m2 = .axis a (List.replicate (membersLen ms2) 1) bx ms2 := by
        simp only [memberSplit, hms] at h
        exact (Option.some_inj.mp h).symm
      rw [this]
      simp only [invB, Bool.and_eq_true, decide_eq_true_eq]
      refine ⟨⟨?_, by simp⟩, hall2⟩
      simp [List.sum_replicate]
    | false =>
      have : m2 = .axis a fl bx ms2 := by
        simp only [memberSplit, hms] at h
        exact (Option.some_inj.mp h).symm
      rw [this]
      simp only [invB, Bool.and_eq_true, decide_eq_true_eq]
      simp only [if_neg] at hlen2
      have hlen3 : membersLen ms2 = membersLen ms := by simpa using hlen2
      exact ⟨⟨by rw [hsum, hlen3], by rw [hflen, hlen3]⟩, hall2⟩

theorem membersSplit_inv : ∀ (sa : Ax) (ms : Members) (o n : ℕ) (d : SplitDirection)
    (out : Members × Bool),
    invAllB ms = true → membersSplit sa ms o n d = some out →
    invAllB out.1 = true ∧ membersLen out.1 = membersLen ms + (if out.2 then 1 else 0)
| _, .nil, _, _, _, _, _, h => by simp [membersSplit] at h
| sa, .cons (.pane q) ms, o, n, d, out, hinv, h => by
  simp only [invAllB, Bool.and_eq_true] at hinv
  by_cases hq : (q == o) = true
  · by_cases hax : (d.axis == sa) = true
    · by_cases hincr : d.increasing = true
      · have : out = (.cons (.pane q) (.cons (.pane n) ms), true) := by
          simp only [membersSplit, hq, hax, hincr, if_true] at h
          exact (Option.some_inj.mp h).symm
        rw [this]
        exact ⟨by simp [invAllB, invB, hinv.2], by simp [membersLen]⟩
      · have hincr2 : d.increasing = false := by simpa using hincr
        have : out = (.cons (.pane n) (.cons (.pane q) ms), true) := by
          simp only [membersSplit, hq, hax, hincr2, if_true, Bool.false_eq_true, if_false] at h
          exact (Option.some_inj.mp h).symm
        rw [this]
        exact ⟨by simp [invAllB, invB, hinv.2], by simp [membersLen]⟩
    · have hax2 : (d.axis == sa) = false := by simpa using hax
      have : out = (.cons (newAxis o n d) ms, false) := by
        simp only [membersSplit, hq, hax2, if_true, Bool.false_eq_true, if_false] at h
        exact (Option.some_inj.mp h).symm
      rw [this]
      exact ⟨by simp [invAllB, newAxis_inv, hinv.2], by simp [membersLen]⟩
  · have hq2 : (q == o) = false := by simpa using hq
    rcases hms : membersSplit sa ms o n d with _ | ⟨ms2, ins⟩
    · simp [membersSplit, hq2, hms] at h
    · have hrec := membersSplit_inv sa ms o n d (ms2, ins) hinv.2 hms
      have : out = (.cons (.pane q) ms2, ins) := by
        simp only [membersSplit, hq2, hms, Bool.false_eq_true, if_false] at h
        simp at h
        exact h.symm
      rw [this]
      refine ⟨by simp [invAllB, hinv.1, hrec.1], ?_⟩
      have h2 : membersLen ms2 = membersLen ms + (if ins = true then 1 else 0) := hrec.2
      cases ins <;> simp [membersLen] at h2 ⊢ <;> omega
| sa, .cons (.axis a fl bx mms) ms, o, n, d, out, hinv, h => by
  simp only [invAllB, Bool.and_eq_true] at hinv
  rcases hin : memberSplit (.axis a fl bx mms) o n d with _ | m2
  · rcases hms : membersSplit sa ms o n d with _ | ⟨ms2, ins⟩
    · simp [membersSplit, hin, hms] at h
    · have hrec := membersSplit_inv sa ms o n d (ms2, ins) hinv.2 hms
      have : out = (.cons (.axis a fl bx mms) ms2, ins) := by
        simp only [membersSplit, hin, hms] at h
        simp at h
        exact h.symm
      rw [this]
      refine ⟨by simp [invAllB, hinv.1, hrec.1], ?_⟩
      have h2 : membersLen ms2 = membersLen ms + (if ins = true then 1 else 0) := hrec.2
      cases ins <;> simp [membersLen] at h2 ⊢ <;> omega
  · have hm2 : invB m2 = true := memberSplit_inv (.axis a fl bx mms) o n d m2 hinv.1 hin
    have : out = (.cons m2 ms, false) := by
      simp only [membersSplit, hin] at h
      simp at h
      exact h.symm
    rw [this]
    exact ⟨by simp [invAllB, hm2, hinv.2], by simp [membersLen]⟩

end

mutual

theorem memberRemove_inv : ∀ (m : Member) (p : ℕ) (m2 : Member),
    invB m = true → memberRemove m p = some m2 → invB m2 = true
| .pane _, _, _, _, h => by simp [memberRemove] at h
| .axis a fl bx ms, p, m2, hinv, h => by
  simp only [invB, Bool.and_eq_true, decide_eq_true_eq] at hinv
  obtain ⟨⟨hsum, hflen⟩, hall⟩ := hinv
  rcases hms : membersRemove ms p with _ | ⟨ms2, rm⟩
  · simp [memberRemove, hms] at h
  · have hrec := membersRemove_inv ms p (ms2, rm) hall hms
    obtain ⟨hall2, hlen2⟩ := hrec
    have hflinv : ((if rm then List.replicate (membersLen ms2) 1 else fl) : List ℚ).sum
          = (membersLen ms2 : ℚ)
        ∧ ((if rm then List.replicate (membersLen ms2) 1 else fl) : List ℚ).length
          = membersLen ms2 := by
      cases rm with
      | true => simp [List.sum_replicate]
      | false =>
        have hlen3 : membersLen ms = membersLen ms2 := by simpa using hlen2
        simp [hsum, hflen, hlen3]
    cases ms2 with
    | nil =>
      have : m2 = .axis a (if rm then List.replicate (membersLen (Members.nil)) 1 else fl) bx .nil := by
        simp only [memberRemove, hms] at h
        exact (Option.some_inj.mp h).symm
      rw [this]
      simp only [invB, Bool.and_eq_true, decide_eq_true_eq]
      exact ⟨⟨hflinv.1, hflinv.2⟩, rfl⟩
    | cons x ms3 =>
      cases ms3 with
      | nil =>
        have hx : m2 = x := by
          simp only [memberRemove, hms] at h
          exact (Option.some_inj.mp h).symm
        have : invB x = true := by
          simp only [invAllB, Bool.and_eq_true] at hall2
          exact hall2.1
        rw [hx]; exact this
      | cons y ms4 =>
        have hx : m2 = .axis a (if rm then List.replicate (membersLen (.cons x (.cons y ms4))) 1 else fl) bx (.cons x (.cons y ms4)) := by
          simp only [memberRemove, hms] at h
          exact (Option.some_inj.mp h).symm
        rw [hx]
        simp only [invB, Bool.and_eq_true, decide_eq_true_eq]
        exact ⟨⟨hflinv.1, hflinv.2⟩, hall2⟩

theorem membersRemove_inv : ∀ (ms : Members) (p : ℕ) (out : Members × Bool),
    invAllB ms = true → membersRemove ms p = some out →
    invAllB out.1 = true ∧ membersLen ms = membersLen out.1 + (if out.2 then 1 else 0)
| .nil, _, _, _, h => by simp [membersRemove] at h
| .cons (.pane q) ms, p, out, hinv, h => by
  simp only [invAllB, Bool.and_eq_true] at hinv
  by_cases hq : (q == p) = true
  · have : out = (ms, true) := by
      simp only [membersRemove, hq, if_true] at h
      exact (Option.some_inj.mp h).symm
    rw [this]
    exact ⟨hinv.2, by simp [membersLen]⟩
  · have hq2 : (q == p) = false := by simpa using hq
    rcases hms : membersRemove ms p with _ | ⟨ms2, b2⟩
    · simp [membersRemove, hq2, hms] at h
    · have hrec := membersRemove_inv ms p (ms2, b2) hinv.2 hms
      have : out = (.cons (.pane q) ms2, b2) := by
        simp only [membersRemove, hq2, hms] at h
        simp at h
        exact h.symm
      rw [this]
      refine ⟨by simp [invAllB, hinv.1, hrec.1], ?_⟩
      have h2 : membersLen ms = membersLen ms2 + (if b2 = true then 1 else 0) := hrec.2
      cases b2 <;> simp [membersLen] at h2 ⊢ <;> omega
| .cons (.axis a fl bx mms) ms, p, out, hinv, h => by
  simp only [invAllB, Bool.and_eq_true] at hinv
  rcases hin : memberRemove (.axis a fl bx mms) p with _ | slot
  · rcases hms : membersRemove ms p with _ | ⟨ms2, b2⟩
    · simp [membersRemove, hin, hms] at h
    · have hrec := membersRemove_inv ms p (ms2, b2) hinv.2 hms
      have : out = (.cons (.axis a fl bx mms) ms2, b2) := by
        simp only [membersRemove, hin, hms] at h
        simp at h
        exact h.symm
      rw [this]
      refine ⟨by simp [invAllB, hinv.1, hrec.1], ?_⟩
      have h2 : membersLen ms = membersLen ms2 + (if b2 = true then 1 else 0) := hrec.2
      cases b2 <;> simp [membersLen] at h2 ⊢ <;> omega
  · have hslot : invB slot = true := memberRemove_inv (.axis a fl bx mms) p slot hinv.1 hin
    have : out = (.cons slot ms, false) := by
      simp only [membersRemove, hin] at h
      simp at h
      exact h.symm
    rw [this]
    exact ⟨by simp [invAllB, hslot, hinv.2], by simp [membersLen]⟩

end

mutual

theorem invB_ainvB : ∀ (m : Member), invB m = true → ainvB m = true
| .pane _, _ => rfl
| .axis a fl bx ms, h => by
  simp only [invB, Bool.and_eq_true, decide_eq_true_eq] at h
  obtain ⟨⟨hsum, hlen⟩, hall⟩ := h
  simp only [ainvB, Bool.and_eq_true, decide_eq_true_eq]
  exact ⟨by rw [hsum]; norm_num, invAllB_ainvAllB ms hall⟩

theorem invAllB_ainvAllB : ∀ (ms : Members), invAllB ms = true → ainvAllB ms = true
| .nil, _ => rfl
| .cons m ms, h => by
  simp only [invAllB, Bool.and_eq_true] at h
  simp only [ainvAllB, Bool.and_eq_true]
  exact ⟨invB_ainvB m h.1, invAllB_ainvAllB ms h.2⟩

end

theorem reachable_inv (t : Member) (h : Reachable t) : invB t = true := by
  induction h with
  | base p => rfl
  | split t t2 o n d ht hsp ih =>
    cases t with
    | pane q =>
      simp only [pgSplit] at hsp
      by_cases hq : (q == o) = true
      · rw [if_pos hq] at hsp
        rw [← Option.some_inj.mp hsp]
        exact newAxis_inv o n d
      · rw [if_neg (by simpa using hq)] at hsp
        cases hsp
    | axis a fl bx ms =>
      exact memberSplit_inv _ o n d t2 ih hsp
  | remove t t2 p b ht hrm ih =>
    cases t with
    | pane q =>
      simp only [pgRemove] at hrm
      have h1 : Member.pane q = t2 ∧ (false : Bool) = b := by simpa using hrm
      rw [← h1.1]; rfl
    | axis a fl bx ms =>
      simp only [pgRemove] at hrm
      rcases hin : memberRemove (.axis a fl bx ms) p with _ | slot
      · rw [hin] at hrm; cases hrm
      · rw [hin] at hrm
        have h1 : slot = t2 ∧ (true : Bool) = b := by simpa using hrm
        rw [← h1.1]
        exact memberRemove_inv _ p slot ih hin

mutual

theorem memberSwapOne_id : ∀ (m : Member) (f g : ℕ),
    m.containsPane f = false → m.containsPane g = false → memberSwapOne m f g = m
| .pane q, f, g, hf, hg => by
  simp only [Member.containsPane] at hf hg
  simp [memberSwapOne, hf, hg]
| .axis a fl bx ms, f, g, hf, hg => by
  simp only [Member.containsPane] at hf hg
  simp [memberSwapOne, membersSwap_id ms f g hf hg]

theorem membersSwap_id : ∀ (ms : Members) (f g : ℕ),
    membersContainsPane ms f = false → membersContainsPane ms g = false →
    membersSwap ms f g = ms
| .nil, _, _, _, _ => rfl
| .cons m ms, f, g, hf, hg => by
  simp only [membersContainsPane, Bool.or_eq_false_iff] at hf hg
  simp [membersSwap, memberSwapOne_id m f g hf.1 hg.1, membersSwap_id ms f g hf.2 hg.2]

end

mutual

theorem memberSplit_none_nc : ∀ (m : Member) (o n : ℕ) (d : SplitDirection),
    m.containsPane o = false → memberSplit m o n d = none
| .pane _, _, _, _, _ => rfl
| .axis a fl bx ms, o, n, d, h => by
  have hms : membersContainsPane ms o = false := by
    simpa [Member.containsPane] using h
  simp [memberSplit, membersSplit_none_nc a ms o n d hms]

theorem membersSplit_none_nc : ∀ (sa : Ax) (ms : Members) (o n : ℕ) (d : SplitDirection),
    membersContainsPane ms o = false → membersSplit sa ms o n d = none
| _, .nil, _, _, _, _ => rfl
| sa, .cons (.pane q) ms, o, n, d, h => by
  simp only [membersContainsPane, Member.containsPane, Bool.or_eq_false_iff] at h
  simp [membersSplit, h.1, membersSplit_none_nc sa ms o n d h.2]
| sa, .cons (.axis a fl bx mms) ms, o, n, d, h => by
  simp only [membersContainsPane, Member.containsPane, Bool.or_eq_false_iff] at h
  simp [membersSplit, memberSplit_none_nc (.axis a fl bx mms) o n d
      (by simp [Member.containsPane, h.1]),
    membersSplit_none_nc sa ms o n d h.2]

end

mutual

theorem panesOf_erase : ∀ (m : Member), panesOfM (eraseM m) = panesOfM m
| .pane _ => rfl
| .axis a fl bx ms => by simp [eraseM, panesOfM, panesOfMs_erase ms]

theorem panesOfMs_erase : ∀ (ms : Members), panesOfMs (eraseMs ms) = panesOfMs ms
| .nil => rfl
| .cons m ms => by simp [eraseMs, panesOfMs, panesOf_erase m, panesOfMs_erase ms]

end

/-! ### Claim theorems: structural operations and resize -/

/-- A concrete two-pane horizontal tree used by witnesses. -/
def tEx : Member :=
  .axis .horizontal [1, 1] [none, none] (.cons (.pane 0) (.cons (.pane 1) .nil))

/-- Claim C2: for all sequences of split/remove operations starting from a
single pane, sum(flexes) is within 1e-3 of len(members) at every axis of the
tree, and every interactive resize step conserves the flex total (and the
length of the flex vector). -/
theorem c2_theorem :
    (∀ t : Member, Reachable t → ainvB t = true) ∧
    (∀ (a : Ax) (fl : List ℚ) (ix : ℕ) (pms c : ℚ), ix + 1 < fl.length →
      (computeResize a fl ix pms c).sum = fl.sum ∧
      (computeResize a fl ix pms c).length = fl.length) :=
  ⟨fun t h => invB_ainvB t (reachable_inv t h),
   fun a fl ix pms c hix =>
     ⟨computeResize_sum a fl ix pms c hix, computeResize_length a fl ix pms c⟩⟩

/-- Claim C2 witness: the invariant holds on the tree obtained by splitting a
single pane rightward, and a concrete resize step conserves the flex sum. -/
theorem c2_witness :
    ainvB tEx = true ∧
      (computeResize .horizontal [1, 1] 0 600 800).sum = ([1, 1] : List ℚ).sum :=
  ⟨c2_theorem.1 tEx (Reachable.split (.pane 0) tEx 0 1 .right (Reachable.base 0) rfl),
   (c2_theorem.2 .horizontal [1, 1] 0 600 800 (by norm_num)).1⟩

/-- Claim C3: after a remove operation succeeds on a well-formed tree (every
axis holds at least 2 members), the resulting tree contains no axis with fewer
than 2 members: a singleton axis is popped and its sole member spliced in. -/
theorem c3_theorem (t : Member) (p : ℕ) (t2 : Member) (b : Bool)
    (hwf : wfB t = true) (h : pgRemove t p = some (t2, b)) : wfB t2 = true := by
  cases t with
  | pane q =>
    simp only [pgRemove] at h
    have h1 : Member.pane q = t2 ∧ (false : Bool) = b := by simpa using h
    rw [← h1.1]; rfl
  | axis a fl bx ms =>
    simp only [pgRemove] at h
    rcases hin : memberRemove (.axis a fl bx ms) p with _ | slot
    · rw [hin] at h; cases h
    · rw [hin] at h
      have h1 : slot = t2 ∧ (true : Bool) = b := by simpa using h
      rw [← h1.1]
      exact memberRemove_wf _ p slot hwf hin

/-- Claim C3 witness: removing pane 0 from a two-pane axis collapses the root
to the bare pane 1, which is well-formed. -/
theorem c3_witness : wfB tEx = true ∧ wfB (Member.pane 1) = true :=
  ⟨by decide, c3_theorem tEx 0 (Member.pane 1) true (by decide) (by rfl)⟩

/-- Claim C4: a resize-drag step never pulls any child's primary-axis size
(container extent * flex[k] / N) below the axis minimum (80px horizontal,
100px vertical), however large the pointer displacement: starting from a state
in which every child is at or above the minimum, every child is still at or
above it after compute_resize; the displacement is only partially applied. -/
theorem c4_theorem (a : Ax) (fl : List ℚ) (ix : ℕ) (pms c : ℚ)
    (hc : 0 < c) (hix : ix + 1 < fl.length)
    (hmin : ∀ j, j < fl.length → minSize a ≤ szOf c fl j) :
    ∀ j, j < fl.length → minSize a ≤ szOf c (computeResize a fl ix pms c) j := by
  intro j hj
  simp only [computeResize]
  split_ifs with hguard hdir
  · exact hmin j hj
  · exact resizeLoop_min (minSize a) c hc (forwardIdxs ix fl.length) fl
      (pms - szOf c fl ix) (fun k hk => forwardIdxs_mem ix fl.length k hk) hmin j hj
  · exact resizeLoop_min (minSize a) c hc (backwardIdxs ix) fl
      (pms - szOf c fl ix)
      (fun k hk => by have := backwardIdxs_mem ix k hk; omega) hmin j hj

/-- Claim C4 witness: dragging handle 0 of two 400px children of an 800px
horizontal container by a huge amount keeps child 1 at or above 80px. -/
theorem c4_witness :
    (0 : ℚ) < 800 ∧ 0 + 1 < ([1, 1] : List ℚ).length ∧
      minSize .horizontal ≤ szOf 800 (computeResize .horizontal [1, 1] 0 100000 800) 1 :=
  ⟨by norm_num, by norm_num,
   c4_theorem .horizontal [1, 1] 0 100000 800 (by norm_num) (by norm_num)
     (by with_unfolding_all decide) 1 (by norm_num)⟩

/-- Claim C5 (amended): compute_resize refuses any change exactly when the
dragged child's current size is more than one pixel below the axis minimum
(size < min - 1, the source guard min_size - px(1.) > size); for such states
the flex vector is returned unchanged for every pointer position. -/
theorem c5_theorem (a : Ax) (fl : List ℚ) (ix : ℕ) (pms c : ℚ)
    (h : szOf c fl ix < minSize a - 1) :
    computeResize a fl ix pms c = fl := by
  simp only [computeResize]
  rw [if_pos (show minSize a - 1 > szOf c fl ix from h)]

/-- Claim C5 counterexample: child 0 sits exactly at the 80px horizontal
minimum (container 280, flexes [4/7, 10/7]) — "at or below the minimum" — yet
compute_resize changes the flex vector. -/
theorem c5_counterexample :
    szOf 280 ([4/7, 10/7] : List ℚ) 0 ≤ minSize .horizontal ∧
      computeResize .horizontal [4/7, 10/7] 0 180 280 ≠ ([4/7, 10/7] : List ℚ) := by
  constructor
  · with_unfolding_all decide
  · with_unfolding_all decide

/-- Claim C5 witness: a child far below the minimum (size 50 < 79) blocks any
flex change. -/
theorem c5_witness :
    szOf 100 ([1, 1] : List ℚ) 0 < minSize .horizontal - 1 ∧
      computeResize .horizontal [1, 1] 0 500 100 = ([1, 1] : List ℚ) :=
  ⟨by with_unfolding_all decide,
   c5_theorem .horizontal [1, 1] 0 500 100 (by with_unfolding_all decide)⟩

theorem getD_resizeLoop_high (minS c : ℚ) (ix : ℕ) (l : List ℕ) (hl : ∀ k ∈ l, k ≤ ix) :
    ∀ (fl : List ℚ) (p : ℚ) (j : ℕ), ix + 1 < j →
      (resizeLoop minS c l (fl, p)).1.getD j 0 = fl.getD j 0 := by
  induction l with
  | nil => intro fl p j hj; rfl
  | cons k ks ih =>
    intro fl p j hj
    by_cases h : p = 0
    · simp [resizeLoop, h]
    · have hk : k ≤ ix := hl k (by simp)
      simp only [resizeLoop, if_neg (show ¬((fl, p).2 = 0) from h)]
      rcases hst : resizeStep minS c k (fl, p) with ⟨fl2, p2⟩
      have hfl2 : fl2.getD j 0 = fl.getD j 0 := by
        have := resizeStep_getD_other minS c k fl p j (by omega) (by omega)
        rw [hst] at this
        exact this
      rw [ih (fun k2 hk2 => hl k2 (by simp [hk2])) fl2 p2 j hj, hfl2]

/-- Claim C6 (amended): when the proposed pixel delta is not positive
(shrinking), the loop walks the pairs (i,i+1), (i-1,i), ... backwards, so flex
weights at indices below i can change, but no flex weight at an index above
i+1 is ever modified. -/
theorem c6_theorem (a : Ax) (fl : List ℚ) (ix : ℕ) (pms c : ℚ)
    (hneg : pms - szOf c fl ix ≤ 0) :
    ∀ j, ix + 1 < j → (computeResize a fl ix pms c).getD j 0 = fl.getD j 0 := by
  intro j hj
  simp only [computeResize]
  split_ifs with hguard hdir
  · rfl
  · exact absurd hdir (not_lt.mpr hneg)
  · exact getD_resizeLoop_high (minSize a) c ix (backwardIdxs ix)
      (fun k hk => backwardIdxs_mem ix k hk) fl _ j hj

/-- Claim C6 counterexample: dragging handle 1 of three 200px children with a
large negative delta modifies flex index 0, an index below the dragged one. -/
theorem c6_counterexample :
    (-300 : ℚ) - szOf 600 ([1, 1, 1] : List ℚ) 1 < 0 ∧
      (computeResize .horizontal [1, 1, 1] 1 (-300) 600).getD 0 0 ≠
        (([1, 1, 1] : List ℚ).getD 0 0) := by
  constructor
  · with_unfolding_all decide
  · with_unfolding_all decide

/-- Claim C6 witness: a shrink of handle 1 in a four-child axis leaves flex
index 3 (above i+1 = 2) unchanged. -/
theorem c6_witness :
    (0 : ℚ) - szOf 800 ([1, 1, 1, 1] : List ℚ) 1 ≤ 0 ∧
      (computeResize .horizontal [1, 1, 1, 1] 1 0 800).getD 3 0 =
        (([1, 1, 1, 1] : List ℚ).getD 3 0) :=
  ⟨by with_unfolding_all decide,
   c6_theorem .horizontal [1, 1, 1, 1] 1 0 800 (by with_unfolding_all decide) 3
     (by norm_num)⟩

/-- Claim C7 (amended): PaneGroup::remove returns Ok(false) whenever the root
is a single Pane (even if the requested pane is absent); when the root is an
Axis it returns Ok(true) if the pane occurs in the tree and fails with an
error if it does not. -/
theorem c7_theorem (t : Member) (p : ℕ) :
    ((∃ q, t = Member.pane q) → pgRemove t p = some (t, false)) ∧
    ((∀ q, t ≠ Member.pane q) → t.containsPane p = true →
      ∃ t2, pgRemove t p = some (t2, true)) ∧
    ((∀ q, t ≠ Member.pane q) → t.containsPane p = false → pgRemove t p = none) := by
  refine ⟨?_, ?_, ?_⟩
  · rintro ⟨q, rfl⟩
    rfl
  · intro hax hc
    cases t with
    | pane q => exact absurd rfl (hax q)
    | axis a fl bx ms =>
      have hc2 : membersContainsPane ms p = true := by
        simpa [Member.containsPane] using hc
      have hsome := membersRemove_some_c ms p hc2
      rcases hms : membersRemove ms p with _ | ⟨ms2, rm⟩
      · rw [hms] at hsome; simp at hsome
      · have hslot : ∃ slot, memberRemove (.axis a fl bx ms) p = some slot := by
          simp only [memberRemove, hms]
          cases ms2 with
          | nil => exact ⟨_, rfl⟩
          | cons x ms3 =>
            cases ms3 with
            | nil => exact ⟨_, rfl⟩
            | cons y ms4 => exact ⟨_, rfl⟩
        obtain ⟨slot, hsl⟩ := hslot
        exact ⟨slot, by simp [pgRemove, hsl]⟩
  · intro hax hc
    cases t with
    | pane q => exact absurd rfl (hax q)
    | axis a fl bx ms =>
      have hnone : memberRemove (.axis a fl bx ms) p = none :=
        memberRemove_none_nc _ p hc
      simp [pgRemove, hnone]

/-- Claim C7 counterexample: pane 1 is absent from the single-pane tree
[pane 0], yet remove returns Ok(false) — not an error — contradicting "fails
whenever the given pane is absent from the tree". -/
theorem c7_counterexample :
    (Member.pane 0).containsPane 1 = false ∧
      (pgRemove (Member.pane 0) 1).isSome = true ∧
      (pgRemove (Member.pane 0) 1).map Prod.snd = some false :=
  ⟨by decide, by decide, by decide⟩

/-- Claim C7 witness: the single-pane root case returns Ok(false). -/
theorem c7_witness : pgRemove (Member.pane 5) 5 = some (Member.pane 5, false) :=
  (c7_theorem (Member.pane 5) 5).1 ⟨5, rfl⟩

/-- Claim C8 (amended): swap is a silent no-op when both panes are absent from
the tree (and is total, never an error); if exactly one of the two panes is
present the tree does change. -/
theorem c8_theorem (t : Member) (f g : ℕ)
    (hf : t.containsPane f = false) (hg : t.containsPane g = false) :
    pgSwap t f g = t := by
  cases t with
  | pane q => rfl
  | axis a fl bx ms =>
    have hf2 : membersContainsPane ms f = false := by
      simpa [Member.containsPane] using hf
    have hg2 : membersContainsPane ms g = false := by
      simpa [Member.containsPane] using hg
    simp [pgSwap, membersSwap_id ms f g hf2 hg2]

/-- Claim C8 counterexample: from = pane 2 is absent but to = pane 1 is
present; swap replaces pane 1 by pane 2, changing the tree's pane list — not a
no-op, contradicting "if either is absent the tree is unchanged". -/
theorem c8_counterexample :
    tEx.containsPane 2 = false ∧ panesOfM (pgSwap tEx 2 1) ≠ panesOfM tEx :=
  ⟨by decide, by decide⟩

/-- Claim C8 witness: swapping two absent panes leaves the tree unchanged. -/
theorem c8_witness :
    tEx.containsPane 5 = false ∧ tEx.containsPane 7 = false ∧ pgSwap tEx 5 7 = tEx :=
  ⟨by decide, by decide, c8_theorem tEx 5 7 (by decide) (by decide)⟩

/-! ### Layout lemmas and claim C1 -/

/-- Default bounds value for list indexing. -/
def bZero : BoundsQ := ⟨⟨0, 0⟩, ⟨0, 0⟩⟩

theorem axExtent_child (a : Ax) (bsize : SizeQ) (q : ℚ) :
    axExtent a (mapSize (applyAlongSize a bsize (fun _ => q)) rustRound) = rustRound q := by
  cases a <;> rfl

theorem axCoord_applyAlong (a : Ax) (p : PointQ) (f : ℚ → ℚ) :
    axCoord a (applyAlongPoint a p f) = f (axCoord a p) := by
  cases a <;> rfl

theorem layoutChildren_length (a : Ax) (bsize : SizeQ) (spf : ℚ) :
    ∀ (fs : List ℚ) (o : PointQ), (layoutChildren a bsize spf o fs).length = fs.length := by
  intro fs
  induction fs with
  | nil => intro o; rfl
  | cons f fs ih => intro o; simp [layoutChildren, ih]

theorem layoutChildren_rep_getD (a : Ax) (bsize : SizeQ) (spf : ℚ) :
    ∀ (n : ℕ) (o : PointQ) (k : ℕ), k < n →
      (layoutChildren a bsize spf o (List.replicate n 1)).getD k bZero
        = ⟨applyAlongPoint a o (fun v => v + k * rustRound spf),
           mapSize (applyAlongSize a bsize (fun _ => spf)) rustRound⟩ := by
  intro n
  induction n with
  | zero => intro o k hk; omega
  | succ m ih =>
    intro o k hk
    rw [List.replicate_succ]
    simp only [layoutChildren, mul_one]
    cases k with
    | zero =>
      simp only [List.getD_cons_zero]
      cases a <;> simp [applyAlongPoint]
    | succ k2 =>
      simp only [List.getD_cons_succ]
      rw [ih _ k2 (by omega)]
      cases a <;>
        simp [applyAlongPoint, axExtent, mapSize, applyAlongSize] <;>
        push_cast <;>
        ring

theorem layoutChildren_rep_sum (a : Ax) (bsize : SizeQ) (spf : ℚ) :
    ∀ (n : ℕ) (o : PointQ),
      ((layoutChildren a bsize spf o (List.replicate n 1)).map
          (fun bb => axExtent a bb.size)).sum = n * rustRound spf := by
  intro n
  induction n with
  | zero => intro o; simp [layoutChildren]
  | succ m ih =>
    intro o
    rw [List.replicate_succ]
    simp only [layoutChildren, mul_one, List.map_cons, List.sum_cons]
    rw [ih, axExtent_child]
    push_cast
    ring

/-- Claim C1 (amended): with N children of equal flex weight, prepaint gives
each child the primary-axis extent round(container_extent / N), places child k
at origin + k * round(container_extent / N) along the axis - so consecutive
children abut exactly, with no gap and no overlap between them - and the
primary extents sum to N * round(container_extent / N), which need not equal
the container extent. -/
theorem c1_theorem (a : Ax) (b : BoundsQ) (n : ℕ) (hn : 0 < n) :
    (prepaintBounds a b (List.replicate n 1)).length = n ∧
    (∀ k, k < n →
      axExtent a ((prepaintBounds a b (List.replicate n 1)).getD k bZero).size
          = rustRound (axExtent a b.size / (n : ℚ)) ∧
      axCoord a ((prepaintBounds a b (List.replicate n 1)).getD k bZero).origin
          = axCoord a b.origin + (k : ℚ) * rustRound (axExtent a b.size / (n : ℚ))) ∧
    (∀ k, k + 1 < n →
      axCoord a ((prepaintBounds a b (List.replicate n 1)).getD (k + 1) bZero).origin
          = axCoord a ((prepaintBounds a b (List.replicate n 1)).getD k bZero).origin
            + axExtent a ((prepaintBounds a b (List.replicate n 1)).getD k bZero).size) ∧
    ((prepaintBounds a b (List.replicate n 1)).map (fun bb => axExtent a bb.size)).sum
        = (n : ℚ) * rustRound (axExtent a b.size / (n : ℚ)) := by
  have hrw : prepaintBounds a b (List.replicate n 1)
      = layoutChildren a b.size (axExtent a b.size / (n : ℚ)) b.origin (List.replicate n 1) := by
    simp [prepaintBounds]
  have hget := layoutChildren_rep_getD a b.size (axExtent a b.size / (n : ℚ)) n b.origin
  refine ⟨?_, ?_, ?_, ?_⟩
  · rw [hrw, layoutChildren_length, List.length_replicate]
  · intro k hk
    rw [hrw, hget k hk]
    constructor
    · exact axExtent_child a b.size _
    · exact axCoord_applyAlong a b.origin _
  · intro k hk
    rw [hrw, hget k (by omega), hget (k + 1) hk]
    rw [axExtent_child, axCoord_applyAlong, axCoord_applyAlong]
    push_cast
    ring
  · rw [hrw, layoutChildren_rep_sum]

/-- Claim C1 counterexample: a 100px-wide horizontal container split into 3
equal children yields primary extents [33, 33, 33]; their sum 99 is not the
container extent 100, so the children do not exactly tile the container. -/
theorem c1_counterexample :
    ((prepaintBounds .horizontal ⟨⟨0, 0⟩, ⟨100, 50⟩⟩ (List.replicate 3 1)).map
        (fun bb => axExtent .horizontal bb.size)).sum
      ≠ axExtent .horizontal (⟨100, 50⟩ : SizeQ) := by
  with_unfolding_all decide

/-- Claim C1 witness: the amended tiling statement evaluated on the 100x50
container with 3 children. -/
theorem c1_witness :
    0 < 3 ∧
      ((prepaintBounds .horizontal ⟨⟨0, 0⟩, ⟨100, 50⟩⟩ (List.replicate 3 1)).map
          (fun bb => axExtent .horizontal bb.size)).sum
        = ((3 : ℕ) : ℚ) * rustRound (axExtent .horizontal (⟨100, 50⟩ : SizeQ) / ((3 : ℕ) : ℚ)) :=
  ⟨by norm_num, (c1_theorem .horizontal ⟨⟨0, 0⟩, ⟨100, 50⟩⟩ 3 (by norm_num)).2.2.2⟩

/-! ### Hit-testing lemmas and claim C10 -/

theorem membersPaneAt_first : ∀ (ms : Members) (bxs : List (Option BoundsQ)) (pt : PointQ),
    (∀ (i : ℕ) (m : Member), membersGet? ms i = some m → hitAt bxs pt i = true →
      (∀ j, j < i → hitAt bxs pt j = false) →
      membersPaneAt ms bxs pt = memberDescend m pt) ∧
    ((∀ j, j < membersLen ms → hitAt bxs pt j = false) →
      membersPaneAt ms bxs pt = none)
| .nil, bxs, pt => by
  refine ⟨?_, fun _ => rfl⟩
  intro i m hm
  simp [membersGet?] at hm
| .cons m ms, bxs, pt => by
  rcases bxs with _ | ⟨b0, rest⟩
  · have ih := membersPaneAt_first ms [] pt
    refine ⟨?_, ?_⟩
    · intro i m2 _ hhit _
      rw [show hitAt [] pt i = false from rfl] at hhit
      cases hhit
    · intro _
      show membersPaneAt (.cons m ms) [] pt = none
      simp only [membersPaneAt, List.headD_nil, List.tail_nil]
      exact ih.2 (fun j hj => rfl)
  · have ih := membersPaneAt_first ms rest pt
    refine ⟨?_, ?_⟩
    · intro i m2 hm2 hhit hprev
      cases i with
      | zero =>
        have hm2e : m = m2 := by simpa [membersGet?] using hm2
        subst hm2e
        simp only [hitAt, List.getD_cons_zero] at hhit
        rcases b0 with _ | bb
        · simp at hhit
        · simp only [membersPaneAt, List.headD_cons]
          rw [if_pos hhit]
      | succ i2 =>
        have hm2t : membersGet? ms i2 = some m2 := by simpa [membersGet?] using hm2
        have hhit2 : hitAt rest pt i2 = true := hhit
        have hprev2 : ∀ j, j < i2 → hitAt rest pt j = false := fun j hj =>
          hprev (j + 1) (by omega)
        have h0 : hitAt (b0 :: rest) pt 0 = false := hprev 0 (by omega)
        have hmain := ih.1 i2 m2 hm2t hhit2 hprev2
        rcases b0 with _ | bb
        · simp only [membersPaneAt, List.headD_cons, List.tail_cons]
          exact hmain
        · have hcb : containsPt bb pt = false := by
            simpa [hitAt] using h0
          simp only [membersPaneAt, List.headD_cons, List.tail_cons]
          rw [if_neg (by simp [hcb])]
          exact hmain
    · intro hall
      have h0 : hitAt (b0 :: rest) pt 0 = false :=
        hall 0 (by simp only [membersLen]; omega)
      have htail : ∀ j, j < membersLen ms → hitAt rest pt j = false := fun j hj =>
        hall (j + 1) (by simp only [membersLen]; omega)
      have hmain := ih.2 htail
      rcases b0 with _ | bb
      · simp only [membersPaneAt, List.headD_cons, List.tail_cons]
        exact hmain
      · have hcb : containsPt bb pt = false := by simpa [hitAt] using h0
        simp only [membersPaneAt, List.headD_cons, List.tail_cons]
        rw [if_neg (by simp [hcb])]
        exact hmain

/-- Claim C10: PaneAxis::pane_at_pixel_position is deterministic first-match:
it scans direct children in member order and descends into the first
(lowest-index) child whose cached box is present and contains the point, so
the lowest index wins when several boxes contain it; it returns none when no
direct child's cached box contains the point. -/
theorem c10_theorem (ms : Members) (bxs : List (Option BoundsQ)) (pt : PointQ) :
    (∀ (i : ℕ) (m : Member), membersGet? ms i = some m → hitAt bxs pt i = true →
      (∀ j, j < i → hitAt bxs pt j = false) →
      membersPaneAt ms bxs pt = memberDescend m pt) ∧
    ((∀ j, j < membersLen ms → hitAt bxs pt j = false) →
      membersPaneAt ms bxs pt = none) :=
  membersPaneAt_first ms bxs pt

/-- Cached boxes used by the C10 witness: children at x in [0,100] and
[100,200]. -/
def bxEx : List (Option BoundsQ) :=
  [some ⟨⟨0, 0⟩, ⟨100, 100⟩⟩, some ⟨⟨100, 0⟩, ⟨100, 100⟩⟩]

/-- Claim C10 witness: the point x = 150 misses child 0's box, hits child 1's
box, and the scan descends into child 1 (pane 7). -/
theorem c10_witness :
    hitAt bxEx ⟨150, 50⟩ 1 = true ∧
      membersPaneAt (.cons (.pane 5) (.cons (.pane 7) .nil)) bxEx ⟨150, 50⟩
        = memberDescend (.pane 7) ⟨150, 50⟩ :=
  ⟨by with_unfolding_all decide,
   (c10_theorem (.cons (.pane 5) (.cons (.pane 7) .nil)) bxEx ⟨150, 50⟩).1 1
     (.pane 7) rfl (by with_unfolding_all decide) (by with_unfolding_all decide)⟩

/-! ### Split-remove roundtrip (claim C9) -/

theorem newAxis_remove_new (o n : ℕ) (d : SplitDirection) (hne : (o == n) = false) :
    memberRemove (newAxis o n d) n = some (.pane o) := by
  cases d <;> simp [newAxis, memberRemove, membersRemove, hne, membersLen]

theorem membersSR : ∀ (sa : Ax) (ms : Members) (o n : ℕ) (d : SplitDirection),
    wfAllB ms = true →
    membersContainsPane ms o = true → membersContainsPane ms n = false →
    ∃ ms1 ins, membersSplit sa ms o n d = some (ms1, ins) ∧
      ∃ ms2 rm, membersRemove ms1 n = some (ms2, rm) ∧
        eraseMs ms2 = eraseMs ms ∧ membersLen ms2 = membersLen ms
| sa, .nil, o, n, d, hall, ho, hn => by
  simp [membersContainsPane] at ho
| sa, .cons (.pane q) ms, o, n, d, hall, ho, hn => by
  simp only [wfAllB, Bool.and_eq_true] at hall
  simp only [membersContainsPane, Member.containsPane, Bool.or_eq_false_iff] at hn
  by_cases hq : (q == o) = true
  · have hqn : (q == n) = false := hn.1
    by_cases hax : (d.axis == sa) = true
    · by_cases hinc : d.increasing = true
      · exact ⟨.cons (.pane q) (.cons (.pane n) ms), true,
          by simp [membersSplit, hq, hax, hinc],
          .cons (.pane q) ms, true,
          by simp [membersRemove, hqn],
          rfl, rfl⟩
      · have hinc2 : d.increasing = false := by simpa using hinc
        exact ⟨.cons (.pane n) (.cons (.pane q) ms), true,
          by simp [membersSplit, hq, hax, hinc2],
          .cons (.pane q) ms, true,
          by simp [membersRemove],
          rfl, rfl⟩
    · have hax2 : (d.axis == sa) = false := by simpa using hax
      have hqo : q = o := by simpa using hq
      have hno : (o == n) = false := by
        rw [← hqo]
        exact hqn
      refine ⟨.cons (newAxis o n d) ms, false,
        by simp [membersSplit, hq, hax2], .cons (.pane o) ms, false, ?_, ?_, ?_⟩
      · rcases hna : newAxis o n d with q2 | ⟨a2, fl2, bx2, mms2⟩
        · exfalso
          cases d <;> simp [newAxis] at hna
        · have hrm2 : memberRemove (.axis a2 fl2 bx2 mms2) n = some (.pane o) := by
            rw [← hna]
            exact newAxis_remove_new o n d hno
          simp [membersRemove, hrm2]
      · subst hqo
        rfl
      · cases d <;> simp [newAxis, membersLen]
  · have hq2 : (q == o) = false := by simpa using hq
    have htail_o : membersContainsPane ms o = true := by
      simpa [membersContainsPane, Member.containsPane, hq2] using ho
    obtain ⟨ms1, ins, hsp, ms2, rm, hrm, herase, hmslen⟩ :=
      membersSR sa ms o n d hall.2 htail_o hn.2
    exact ⟨.cons (.pane q) ms1, ins, by simp [membersSplit, hq2, hsp],
      .cons (.pane q) ms2, rm, by simp [membersRemove, hn.1, hrm],
      by simp [eraseMs, herase], by simp [membersLen, hmslen]⟩
| sa, .cons (.axis a2 fl2 bx2 mms) ms, o, n, d, hall, ho, hn => by
  simp only [wfAllB, Bool.and_eq_true] at hall
  simp only [membersContainsPane, Member.containsPane, Bool.or_eq_false_iff] at hn
  by_cases hc : membersContainsPane mms o = true
  · have hwfin := hall.1
    simp only [wfB, Bool.and_eq_true, decide_eq_true_eq] at hwfin
    obtain ⟨ims1, iins, hspi, ims2, irm, hrmi, heri, hleni⟩ :=
      membersSR a2 mms o n d hwfin.2 hc hn.1
    have hsp2 : memberSplit (.axis a2 fl2 bx2 mms) o n d
        = some (.axis a2 (if iins then List.replicate (membersLen ims1) 1 else fl2) bx2 ims1) := by
      cases iins with
      | true => simp [memberSplit, hspi]
      | false => simp [memberSplit, hspi]
    rcases ims2 with _ | ⟨x, _ | ⟨y, zs⟩⟩
    · exfalso
      simp [membersLen] at hleni
      omega
    · exfalso
      simp [membersLen] at hleni
      omega
    · have hrm2 : memberRemove
          (.axis a2 (if iins then List.replicate (membersLen ims1) 1 else fl2) bx2 ims1) n
          = some (.axis a2
              (if irm then List.replicate (membersLen (Members.cons x (.cons y zs))) 1
               else (if iins then List.replicate (membersLen ims1) 1 else fl2)) bx2
              (.cons x (.cons y zs))) := by
        simp [memberRemove, hrmi]
      refine ⟨.cons (.axis a2 (if iins then List.replicate (membersLen ims1) 1 else fl2) bx2 ims1) ms, false,
        by simp [membersSplit, hsp2],
        .cons (.axis a2
            (if irm then List.replicate (membersLen (Members.cons x (.cons y zs))) 1
             else (if iins then List.replicate (membersLen ims1) 1 else fl2)) bx2
            (.cons x (.cons y zs))) ms, false,
        by simp [membersRemove, hrm2], ?_, by simp [membersLen]⟩
      simp only [eraseMs, eraseM]
      rw [show Members.cons (eraseM x) (Members.cons (eraseM y) (eraseMs zs)) = eraseMs mms
        from heri]
  · have hc2 : membersContainsPane mms o = false := by simpa using hc
    have hnone_sp : memberSplit (.axis a2 fl2 bx2 mms) o n d = none :=
      memberSplit_none_nc _ o n d (by simp [Member.containsPane, hc2])
    have htail_o : membersContainsPane ms o = true := by
      simpa [membersContainsPane, Member.containsPane, hc2] using ho
    obtain ⟨ms1, ins, hsp, ms2, rm, hrm, herase, hmslen⟩ :=
      membersSR sa ms o n d hall.2 htail_o hn.2
    have hnone_rm : memberRemove (.axis a2 fl2 bx2 mms) n = none :=
      memberRemove_none_nc _ n (by simp [Member.containsPane, hn.1])
    exact ⟨.cons (.axis a2 fl2 bx2 mms) ms1, ins,
      by simp [membersSplit, hnone_sp, hsp],
      .cons (.axis a2 fl2 bx2 mms) ms2, rm,
      by simp [membersRemove, hnone_rm, hrm],
      by simp [eraseMs, herase],
      by simp [membersLen, hmslen]⟩

theorem memberSR (a : Ax) (fl : List ℚ) (bx : List (Option BoundsQ)) (ms : Members)
    (o n : ℕ) (d : SplitDirection) (hlen : 2 ≤ membersLen ms) (hall : wfAllB ms = true)
    (ho : membersContainsPane ms o = true) (hn : membersContainsPane ms n = false) :
    ∃ fl2 ms2, memberSplit (.axis a fl bx ms) o n d = some (.axis a fl2 bx ms2) ∧
      ∃ slot, memberRemove (.axis a fl2 bx ms2) n = some slot ∧
        eraseM slot = eraseM (.axis a fl bx ms) := by
  obtain ⟨ms1, ins, hsp, ms2, rm, hrm, herase, hmslen⟩ := membersSR a ms o n d hall ho hn
  refine ⟨if ins then List.replicate (membersLen ms1) 1 else fl, ms1, ?_, ?_⟩
  · cases ins with
    | true => simp [memberSplit, hsp]
    | false => simp [memberSplit, hsp]
  · rcases ms2 with _ | ⟨x, _ | ⟨y, zs⟩⟩
    · exfalso
      simp [membersLen] at hmslen
      omega
    · exfalso
      simp [membersLen] at hmslen
      omega
    · refine ⟨.axis a
          (if rm then List.replicate (membersLen (Members.cons x (.cons y zs))) 1
           else (if ins then List.replicate (membersLen ms1) 1 else fl)) bx
          (.cons x (.cons y zs)), ?_, ?_⟩
      · simp [memberRemove, hrm]
      · simp only [eraseM]
        rw [herase]

/-- Claim C9: on a well-formed tree that contains pane old and does not
contain pane new, split(old, new, d) succeeds, the subsequent remove(new)
returns Ok(true), and the resulting tree has the same pane sequence and the
same axis structure as the original (flex weights and cached boxes aside). -/
theorem c9_theorem (t : Member) (o n : ℕ) (d : SplitDirection)
    (hwf : wfB t = true) (ho : t.containsPane o = true) (hn : t.containsPane n = false) :
    ∃ t1 t2, pgSplit t o n d = some t1 ∧ pgRemove t1 n = some (t2, true) ∧
      eraseM t2 = eraseM t ∧ panesOfM t2 = panesOfM t := by
  cases t with
  | pane q =>
    have hqo : q = o := by simpa [Member.containsPane] using ho
    subst hqo
    have hqn : (q == n) = false := by simpa [Member.containsPane] using hn
    refine ⟨newAxis q n d, .pane q, by simp [pgSplit], ?_, rfl, rfl⟩
    have hrm := newAxis_remove_new q n d hqn
    rcases hna : newAxis q n d with q2 | ⟨a2, fl2, bx2, ms2⟩
    · exfalso
      cases d <;> simp [newAxis] at hna
    · rw [hna] at hrm
      simp [pgRemove, hrm]
  | axis a fl bx ms =>
    simp only [wfB, Bool.and_eq_true, decide_eq_true_eq] at hwf
    have hoc : membersContainsPane ms o = true := by
      simpa [Member.containsPane] using ho
    have hnc : membersContainsPane ms n = false := by
      simpa [Member.containsPane] using hn
    obtain ⟨fl2, ms2, hsp, slot, hrm, herase⟩ :=
      memberSR a fl bx ms o n d hwf.1 hwf.2 hoc hnc
    refine ⟨.axis a fl2 bx ms2, slot, hsp, by simp [pgRemove, hrm], herase, ?_⟩
    rw [← panesOf_erase slot, herase, panesOf_erase]

/-- Claim C9 witness: splitting pane 0 of the two-pane tree with new pane 2
rightward and then removing pane 2 restores the pane sequence and structure. -/
theorem c9_witness :
    wfB tEx = true ∧ tEx.containsPane 0 = true ∧ tEx.containsPane 2 = false ∧
      ∃ t1 t2, pgSplit tEx 0 2 .right = some t1 ∧ pgRemove t1 2 = some (t2, true) ∧
        eraseM t2 = eraseM tEx ∧ panesOfM t2 = panesOfM tEx :=
  ⟨by decide, by decide, by decide,
   c9_theorem tEx 0 2 .right (by decide) (by decide) (by decide)⟩

/-! ### Reachable trees are well-formed -/

theorem newAxis_wf (o n : ℕ) (d : SplitDirection) : wfB (newAxis o n d) = true := by
  cases d <;> simp [newAxis, wfB, wfAllB, membersLen]

mutual

theorem memberSplit_wf : ∀ (m : Member) (o n : ℕ) (d : SplitDirection) (m2 : Member),
    wfB m = true → memberSplit m o n d = some m2 → wfB m2 = true
| .pane _, _, _, _, _, _, h => by simp [memberSplit] at h
| .axis a fl bx ms, o, n, d, m2, hwf, h => by
  simp only [wfB, Bool.and_eq_true, decide_eq_true_eq] at hwf
  rcases hms : membersSplit a ms o n d with _ | ⟨ms2, ins⟩
  · simp [memberSplit, hms] at h
  · have hrec := membersSplit_wf a ms o n d (ms2, ins) hwf.2 hms
    have hlen2 : 2 ≤ membersLen ms2 := le_trans hwf.1 hrec.2
    cases ins with
    | true =>
      have : m2 = .axis a (List.replicate (membersLen ms2) 1) bx ms2 := by
        simp only [memberSplit, hms] at h
        exact (Option.some_inj.mp h).symm
      rw [this]
      simp only [wfB, Bool.and_eq_true, decide_eq_true_eq]
      exact ⟨hlen2, hrec.1⟩
    | false =>
      have : m2 = .axis a fl bx ms2 := by
        simp only [memberSplit, hms] at h
        exact (Option.some_inj.mp h).symm
      rw [this]
      simp only [wfB, Bool.and_eq_true, decide_eq_true_eq]
      exact ⟨hlen2, hrec.1⟩

theorem membersSplit_wf : ∀ (sa : Ax) (ms : Members) (o n : ℕ) (d : SplitDirection)
    (out : Members × Bool),
    wfAllB ms = true → membersSplit sa ms o n d = some out →
    wfAllB out.1 = true ∧ membersLen ms ≤ membersLen out.1
| _, .nil, _, _, _, _, _, h => by simp [membersSplit] at h
| sa, .cons (.pane q) ms, o, n, d, out, hwf, h => by
  simp only [wfAllB, Bool.and_eq_true] at hwf
  by_cases hq : (q == o) = true
  · by_cases hax : (d.axis == sa) = true
    · by_cases hincr : d.increasing = true
      · have : out = (.cons (.pane q) (.cons (.pane n) ms), true) := by
          simp only [membersSplit, hq, hax, hincr, if_true] at h
          exact (Option.some_inj.mp h).symm
        rw [this]
        exact ⟨by simp [wfAllB, wfB, hwf.2], by simp [membersLen]⟩
      · have hincr2 : d.increasing = false := by simpa using hincr
        have : out = (.cons (.pane n) (.cons (.pane q) ms), true) := by
          simp only [membersSplit, hq, hax, hincr2, if_true, Bool.false_eq_true, if_false] at h
          exact (Option.some_inj.mp h).symm
        rw [this]
        exact ⟨by simp [wfAllB, wfB, hwf.2], by simp [membersLen]⟩
    · have hax2 : (d.axis == sa) = false := by simpa using hax
      have : out = (.cons (newAxis o n d) ms, false) := by
        simp only [membersSplit, hq, hax2, if_true, Bool.false_eq_true, if_false] at h
        exact (Option.some_inj.mp h).symm
      rw [this]
      exact ⟨by simp [wfAllB, newAxis_wf, hwf.2], by simp [membersLen]⟩
  · have hq2 : (q == o) = false := by simpa using hq
    rcases hms : membersSplit sa ms o n d with _ | ⟨ms2, ins⟩
    · simp [membersSplit, hq2, hms] at h
    · have hrec := membersSplit_wf sa ms o n d (ms2, ins) hwf.2 hms
      have : out = (.cons (.pane q) ms2, ins) := by
        simp only [membersSplit, hq2, hms, Bool.false_eq_true, if_false] at h
        simp at h
        exact h.symm
      rw [this]
      refine ⟨by simp [wfAllB, hwf.1, hrec.1], ?_⟩
      have h2 : membersLen ms ≤ membersLen ms2 := hrec.2
      simp only [membersLen]
      omega
| sa, .cons (.axis a fl bx mms) ms, o, n, d, out, hwf, h => by
  simp only [wfAllB, Bool.and_eq_true] at hwf
  rcases hin : memberSplit (.axis a fl bx mms) o n d with _ | m2
  · rcases hms : membersSplit sa ms o n d with _ | ⟨ms2, ins⟩
    · simp [membersSplit, hin, hms] at h
    · have hrec := membersSplit_wf sa ms o n d (ms2, ins) hwf.2 hms
      have : out = (.cons (.axis a fl bx mms) ms2, ins) := by
        simp only [membersSplit, hin, hms] at h
        simp at h
        exact h.symm
      rw [this]
      refine ⟨by simp [wfAllB, hwf.1, hrec.1], ?_⟩
      have h2 : membersLen ms ≤ membersLen ms2 := hrec.2
      simp only [membersLen]
      omega
  · have hm2 : wfB m2 = true := memberSplit_wf (.axis a fl bx mms) o n d m2 hwf.1 hin
    have : out = (.cons m2 ms, false) := by
      simp only [membersSplit, hin] at h
      simp at h
      exact h.symm
    rw [this]
    exact ⟨by simp [wfAllB, hm2, hwf.2], by simp [membersLen]⟩

end

/-- Every tree reachable by PaneGroup split/remove calls from a single pane is
well-formed, justifying the well-formedness hypotheses of the claims. -/
theorem reachable_wf (t : Member) (h : Reachable t) : wfB t = true := by
  induction h with
  | base p => rfl
  | split t t2 o n d ht hsp ih =>
    cases t with
    | pane q =>
      simp only [pgSplit] at hsp
      by_cases hq : (q == o) = true
      · rw [if_pos hq] at hsp
        rw [← Option.some_inj.mp hsp]
        exact newAxis_wf o n d
      · rw [if_neg (by simpa using hq)] at hsp
        cases hsp
    | axis a fl bx ms =>
      exact memberSplit_wf _ o n d t2 ih hsp
  | remove t t2 p b ht hrm ih =>
    cases t with
    | pane q =>
      simp only [pgRemove] at hrm
      have h1 : Member.pane q = t2 ∧ (false : Bool) = b := by simpa using hrm
      rw [← h1.1]; rfl
    | axis a fl bx ms =>
      simp only [pgRemove] at hrm
      rcases hin : memberRemove (.axis a fl bx ms) p with _ | slot
      · rw [hin] at hrm; cases hrm
      · rw [hin] at hrm
        have h1 : slot = t2 ∧ (true : Bool) = b := by simpa using hrm
        rw [← h1.1]
        exact memberRemove_wf _ p slot ih hin

end PG
